import Mathlib

/-!
# DictionaryAsGo: the dictionary core and its command-line driver

A shallow embedding of `dictionary/tag.go`, `dictionary/dictionary.go`,
`dictionary/actions.go` and `main.go`.

* Go strings are Lean `String`s; Go compares strings byte-wise on their UTF-8
  encoding, which is the code-point order (`stringLess`, the `<` of `String`).
* `[]byte` is `List Nat`.
* The libraries the package calls are not part of the repository.  The title
  caser (`cases.Title(language.English)`) and the gob encoder and decoder are
  taken as parameters (`Libs`); the badger store is modelled as an ordered
  association list (`DB`) with the checks the engine makes on a key;
  `time.Now()` is an explicit argument of `Add`.
* A Go `map[string]Entry` is an association list with pairwise distinct keys
  (`GoMap`); `sort.Strings` is an insertion sort by Go's `<` on strings.
* A method that mutates the store returns the store it leaves behind together
  with its Go `error` (`none` is `nil`).
-/

namespace DictionaryAsGo

/-! ## tag.go -/

/-- Go `type Tag string`. -/
abbrev Tag := String

/-- Go constant `Tech`. -/
def Tech : Tag := "tech"

/-- Go constant `Philo`. -/
def Philo : Tag := "philo"

/-- Go constant `Food`. -/
def Food : Tag := "food"

/-- Go `var allTags = []Tag{Tech, Philo, Food}`. -/
def allTags : List Tag := [Tech, Philo, Food]

/-- The `for _, t := range allTags` loop of `IsValidTag`, over the rest of the slice. -/
def isValidTagLoop (tag : Tag) : List Tag → Bool
  | [] => false
  | t :: rest => if t = tag then true else isValidTagLoop tag rest

/-- Go `IsValidTag`. -/
def IsValidTag (tag : Tag) : Bool := isValidTagLoop tag allTags

/-! ## dictionary.go -/

/-- Go `[]byte`. -/
abbrev Bytes := List Nat

/-- Go `struct Entry`; `CreatedAt` is the instant as a number. -/
structure Entry where
  Word : String
  Definition : String
  Tag : Tag
  CreatedAt : Nat
  deriving DecidableEq

/-- The zero value of `Entry` (`var entry Entry`). -/
def Entry.zero : Entry := ⟨"", "", "", 0⟩

/-- Go `error` values the core can return. -/
inductive Error where
  /-- The store has no value under the key (`badger.ErrKeyNotFound`). -/
  | keyNotFound
  /-- The key is empty (`badger.ErrEmptyKey`, "Key cannot be empty"). -/
  | emptyKey
  /-- The key of a write starts with the engine's reserved `!badger!`
  (`badger.ErrInvalidKey`). -/
  | invalidKey
  /-- The key of a write is longer than the engine's limit on a key. -/
  | keyTooLarge
  /-- The value of a write is beyond the engine's limits on the size of a value
  or of a transaction. -/
  | tooBig
  /-- An error of the gob encoder or decoder, with a code naming it. -/
  | gob (code : Nat)
  deriving DecidableEq

/-- The library functions the core calls, as parameters. -/
structure Libs where
  /-- The function `cases.Title(language.English).String`. -/
  title : String → String
  /-- The call `gob.NewEncoder(&buffer).Encode(entry)`: the bytes written, or the error. -/
  encode : Entry → Except Error Bytes
  /-- The call `gob.NewDecoder(&buffer).Decode(&entry)` on a zero `entry`: the
  entry as the decoder leaves it (possibly partly filled) and the error. -/
  decode : Bytes → Entry × Option Error
  /-- Whether a write of this key and value is within the limits of the engine
  on the size of a value and of a transaction. -/
  fits : String → Bytes → Bool

/-- What the encoder writes, the decoder reads back without error. -/
def Libs.RoundTrip (L : Libs) : Prop :=
  ∀ e b, L.encode e = .ok b → L.decode b = (e, none)

/-! ## String comparison -/

/-- Go `a < b` on strings, over the characters still to compare: the first
difference decides, and a proper prefix is smaller. -/
def lessChars : List Char → List Char → Bool
  | _, [] => false
  | [], _ :: _ => true
  | a :: as, b :: bs =>
    if a.toNat < b.toNat then true
    else if a = b then lessChars as bs
    else false

/-- Go `a < b` on strings. -/
def stringLess (a b : String) : Bool := lessChars a.data b.data

/-! ## The badger store -/

/-- Modelled from the spec: the embedded key-value engine (badger), which is not
part of the repository, "consumed as an opaque ordered key-value store": the
committed key/value pairs in the order a forward iterator visits them (ascending
key order).  The store is open and its disk is healthy. -/
abbrev DB := List (String × Bytes)

/-- The value the store holds under a key, if any. -/
def lookupKey : DB → String → Except Error Bytes
  | [], _ => .error .keyNotFound
  | (k, v) :: rest, key => if k = key then .ok v else lookupKey rest key

/-- The store with the pair written: it replaces the pair under that key, or
takes its place in key order. -/
def insertKey : DB → String → Bytes → DB
  | [], key, val => [(key, val)]
  | (k, v) :: rest, key, val =>
    if stringLess key k then (key, val) :: (k, v) :: rest
    else if key = k then (key, val) :: rest
    else (k, v) :: insertKey rest key val

/-- The store without the pairs under a key. -/
def deleteKey (db : DB) (key : String) : DB :=
  db.filter (fun kv => !decide (kv.1 = key))

/-- Go `bytes.HasPrefix`, over the characters still to compare. -/
def startsWithChars : List Char → List Char → Bool
  | [], _ => true
  | _ :: _, [] => false
  | p :: ps, c :: cs => if p = c then startsWithChars ps cs else false

/-- The start of the keys the engine keeps for itself. -/
def reservedKeyStart : String := "!badger!"

/-- The longest key the engine takes, in bytes. -/
def maxKeySize : Nat := 65000

/-- The checks of the engine on the key of a write (`txn.Set`, `txn.Delete`), in
their order: the key is not empty, does not start with `!badger!`, and is at most
`maxKeySize` bytes long. -/
def keyError (key : String) : Option Error :=
  if key = "" then some .emptyKey
  else if startsWithChars reservedKeyStart.data key.data then some .invalidKey
  else if maxKeySize < key.utf8ByteSize then some .keyTooLarge
  else none

/-- Modelled from the spec: `txn.Get(key)` followed by `item.Value`, "fails with a
NotFoundError if no entry exists for that exact key (case-sensitive)"; the engine
refuses the empty key first. -/
def txnGet (db : DB) (key : String) : Except Error Bytes :=
  if key = "" then .error .emptyKey else lookupKey db key

/-- Modelled from the spec: `txn.Set(key, val)` in `db.Update`, "a single
transactional write keyed by the raw word string, unconditionally overwriting any
existing entry under that key"; the engine first checks the key and the sizes,
and a refused write leaves the store as it was. -/
def txnSet (L : Libs) (db : DB) (key : String) (val : Bytes) : Except Error DB :=
  match keyError key with
  | some err => .error err
  | none => if L.fits key val then .ok (insertKey db key val) else .error .tooBig

/-- Modelled from the spec: `txn.Delete(key)` in `db.Update`, "the underlying
store's delete-of-missing-key is a no-op, not an error"; the engine first checks
the key, and a refused delete leaves the store as it was. -/
def txnDelete (db : DB) (key : String) : Except Error DB :=
  match keyError key with
  | some err => .error err
  | none => .ok (deleteKey db key)

/-- The store keeps at most one value per key, in ascending key order. -/
def DB.WF (db : DB) : Prop := (db.map Prod.fst).Sorted (· < ·)

/-! ## Go maps and `sort.Strings` -/

/-- Go `map[string]Entry`: the bindings, with pairwise distinct keys. -/
abbrev GoMap := List (String × Entry)

/-- Go `m[k] = v`. -/
def mapSet (m : GoMap) (k : String) (v : Entry) : GoMap :=
  (k, v) :: m.filter (fun p => !decide (p.1 = k))

/-- Go `v, ok := m[k]`. -/
def mapGet : GoMap → String → Option Entry
  | [], _ => none
  | (k, v) :: rest, key => if k = key then some v else mapGet rest key

/-- The keys a `for key := range m` loop visits. -/
def mapKeys (m : GoMap) : List String := m.map Prod.fst

/-- One step of the sort: `key` put in its place in a sorted slice. -/
def insertString (key : String) : List String → List String
  | [] => [key]
  | x :: xs => if stringLess key x then key :: x :: xs else x :: insertString key xs

/-- Go `sort.Strings`: the strings in increasing order by `<`. -/
def sortStrings : List String → List String
  | [] => []
  | key :: keys => insertString key (sortStrings keys)

/-! ## dictionary.go, continued -/

/-- Go `struct Dictionary`: the handle of the store, here the store itself. -/
structure Dictionary where
  db : DB
  deriving DecidableEq

/-! ## actions.go -/

/-- Go `getEntry`: the value of the item, copied to a buffer (the copy is taken to
succeed) and decoded into a zero `Entry`; the entry is returned with the error of
the decoder, as the decoder left it. -/
def getEntry (L : Libs) (val : Bytes) : Entry × Option Error :=
  L.decode val

/-- Go `sortedKeys`. -/
def sortedKeys (entries : GoMap) : List String :=
  sortStrings (mapKeys entries)

/-- Go `Dictionary.Add`; `now` is what `time.Now()` returns.  The dictionary
returned is the one the call leaves behind: unchanged when the encoder or the
write fails. -/
def Dictionary.Add (d : Dictionary) (L : Libs) (now : Nat) (word definition : String)
    (tag : Tag) : Dictionary × Option Error :=
  let entry : Entry :=
    { Word := L.title word, Definition := definition, Tag := tag, CreatedAt := now }
  match L.encode entry with
  | .error err => (d, some err)
  | .ok buffer =>
    match txnSet L d.db word buffer with
    | .error err => (d, some err)
    | .ok db => (⟨db⟩, none)

/-- Go `Dictionary.Get`. -/
def Dictionary.Get (d : Dictionary) (L : Libs) (word : String) : Entry × Option Error :=
  match txnGet d.db word with
  | .error err => (Entry.zero, some err)
  | .ok val => getEntry L val

/-- The iterator loop of `List`, over the items still to visit. -/
def listLoop (L : Libs) : DB → GoMap → GoMap × Option Error
  | [], entries => (entries, none)
  | (_, val) :: rest, entries =>
    match getEntry L val with
    | (_, some err) => (entries, some err)
    | (entry, none) => listLoop L rest (mapSet entries entry.Word entry)

/-- The iterator loop of `ListTag`, over the items still to visit. -/
def listTagLoop (L : Libs) (t : Tag) : DB → GoMap → GoMap × Option Error
  | [], entries => (entries, none)
  | (_, val) :: rest, entries =>
    let r := getEntry L val
    let entries1 :=
      if IsValidTag r.1.Tag && decide (r.1.Tag = t) then mapSet entries r.1.Word r.1
      else entries
    match r.2 with
    | some err => (entries1, some err)
    | none => listTagLoop L t rest entries1

/-- What `List` and `ListTag` return: the sorted words, the map and the error. -/
structure Listing where
  words : List String
  entries : GoMap
  err : Option Error
  deriving DecidableEq

/-- Go `Dictionary.ListTag`. -/
def Dictionary.ListTag (d : Dictionary) (L : Libs) (t : Tag) : Listing :=
  let r := listTagLoop L t d.db []
  ⟨sortedKeys r.1, r.1, r.2⟩

/-- Go `Dictionary.List`. -/
def Dictionary.List (d : Dictionary) (L : Libs) : Listing :=
  let r := listLoop L d.db []
  ⟨sortedKeys r.1, r.1, r.2⟩

/-- Go `Dictionary.Remove`.  The dictionary returned is the one the call leaves
behind: unchanged when the delete fails. -/
def Dictionary.Remove (d : Dictionary) (word : String) : Dictionary × Option Error :=
  match txnDelete d.db word with
  | .error err => (d, some err)
  | .ok db => (⟨db⟩, none)

/-! ## Vocabulary for the properties of the store -/

/-- Every stored value decodes into an `Entry` without error. -/
def AllDecode (L : Libs) (db : DB) : Prop :=
  ∀ kv ∈ db, (getEntry L kv.2).2 = none

/-- The entries the stored values decode to, in scan order. -/
def storedEntries (L : Libs) (db : DB) : List Entry :=
  db.map (fun kv => (getEntry L kv.2).1)

/-- Every stored value that decodes has a tag of the valid set. -/
def TagsValid (L : Libs) (db : DB) : Prop :=
  ∀ kv ∈ db, ∀ e, getEntry L kv.2 = (e, none) → IsValidTag e.Tag = true

/-- The map the loops build from a run of entries: `entries[e.Word] = e` for each. -/
def buildMap : List Entry → GoMap → GoMap
  | [], m => m
  | e :: es, m => buildMap es (mapSet m e.Word e)

/-- How a run of the program ends. -/
inductive Status where
  /-- The action ran to its end. -/
  | done
  /-- The branch that prints "Invalid tag" was taken. -/
  | invalidTag
  /-- The `default` branch of the switch: "Unknown command". -/
  | unknownCommand
  /-- The function `handleError` got a non-nil error: it prints it and exits with status 1. -/
  | fatal (err : Error)
  /-- An `args[i]` beyond the arguments given: the run-time error of Go. -/
  | indexOutOfRange
  deriving DecidableEq

/-- A run of the program: the dictionary it leaves on disk and how it ended.
What the program prints is left out. -/
structure Run where
  d : Dictionary
  status : Status
  deriving DecidableEq

/-- Go `handleError` followed by the rest of the action, which ends normally. -/
def handleError (d : Dictionary) : Option Error → Run
  | some err => ⟨d, .fatal err⟩
  | none => ⟨d, .done⟩

/-- Go `actionList`. -/
def actionList (L : Libs) (d : Dictionary) : Run :=
  handleError d (d.List L).err

/-- Go `actionAdd`. -/
def actionAdd (L : Libs) (now : Nat) (d : Dictionary) (args : List String) : Run :=
  match args[0]?, args[1]?, args[2]? with
  | some word, some definition, some tag =>
    if !IsValidTag tag then ⟨d, .invalidTag⟩
    else
      let r := d.Add L now word definition tag
      handleError r.1 r.2
  | _, _, _ => ⟨d, .indexOutOfRange⟩

/-- Go `actionDefine`. -/
def actionDefine (L : Libs) (d : Dictionary) (args : List String) : Run :=
  match args[0]? with
  | some word => handleError d (d.Get L word).2
  | none => ⟨d, .indexOutOfRange⟩

/-- Go `actionTag`. -/
def actionTag (L : Libs) (d : Dictionary) (args : List String) : Run :=
  match args[0]? with
  | some tag =>
    if !IsValidTag tag then ⟨d, .invalidTag⟩
    else handleError d (d.ListTag L tag).err
  | none => ⟨d, .indexOutOfRange⟩

/-- Go `actionRemove`. -/
def actionRemove (d : Dictionary) (args : List String) : Run :=
  match args[0]? with
  | some word =>
    let r := d.Remove word
    handleError r.1 r.2
  | none => ⟨d, .indexOutOfRange⟩

/-- Go `main`, from the opened dictionary on: `action` is the value of the
`-action` flag and `args` is `flag.Args()`. -/
def main (L : Libs) (now : Nat) (d : Dictionary) (action : String) (args : List String) : Run :=
  if action = "list" then actionList L d
  else if action = "add" then actionAdd L now d args
  else if action = "define" then actionDefine L d args
  else if action = "remove" then actionRemove d args
  else if action = "tag" then actionTag L d args
  else ⟨d, .unknownCommand⟩

/-! ## Concrete libraries for the examples -/

/-- Title case of a run of characters: the first letter of each word separated
by blanks in upper case, the others in lower case. -/
def titleChars : Bool → List Char → List Char
  | _, [] => []
  | start, c :: cs =>
    if c = ' ' then c :: titleChars true cs
    else (if start then c.toUpper else c.toLower) :: titleChars false cs

/-- A title caser for words of ASCII letters. -/
def sampleTitle (s : String) : String := ⟨titleChars true s.data⟩

/-- A string as bytes: its length, then its characters. -/
def putString (s : String) : Bytes := s.length :: s.data.map Char.toNat

/-- Reads a string written by `putString` off the front of the bytes. -/
def takeString : Bytes → Option (String × Bytes)
  | [] => none
  | n :: rest =>
    if n ≤ rest.length then some (⟨(rest.take n).map Char.ofNat⟩, rest.drop n) else none

/-- A codec that writes the four fields in order. -/
def sampleEncode (e : Entry) : Except Error Bytes :=
  .ok (putString e.Word ++ (putString e.Definition ++ (putString e.Tag ++ [e.CreatedAt])))

/-- The decoder of `sampleEncode`: it fills the fields in order and keeps those
read before an error. -/
def sampleDecode (b : Bytes) : Entry × Option Error :=
  match takeString b with
  | none => (Entry.zero, some (.gob 1))
  | some (w, b1) =>
    match takeString b1 with
    | none => ({ Entry.zero with Word := w }, some (.gob 2))
    | some (df, b2) =>
      match takeString b2 with
      | none => ({ Entry.zero with Word := w, Definition := df }, some (.gob 3))
      | some (tg, b3) =>
        match b3 with
        | [created] => (⟨w, df, tg, created⟩, none)
        | _ => ({ Entry.zero with Word := w, Definition := df, Tag := tg }, some (.gob 4))

/-- The concrete libraries of the examples. -/
def sampleLibs : Libs := ⟨sampleTitle, sampleEncode, sampleDecode, fun _ val => val.length ≤ 1000⟩

/-- A dictionary on an empty store. -/
def emptyDict : Dictionary := ⟨[]⟩

/-- The dictionary after `add abc "first def" tech` and `add xyz "second def" food`. -/
def twoWordDict : Dictionary :=
  ((emptyDict.Add sampleLibs 1 "abc" "first def" "tech").1.Add
    sampleLibs 2 "xyz" "second def" "food").1

/-- The dictionary after `add Hello "a greeting" tech` and `add hello "a salute" food`:
two raw keys, one display word. -/
def collidingDict : Dictionary :=
  ((emptyDict.Add sampleLibs 1 "Hello" "a greeting" "tech").1.Add
    sampleLibs 2 "hello" "a salute" "food").1

/-- The dictionary after `add abc "first def" tech`, with one more value, under
the key `xyz`, that is not the encoding of an entry. -/
def brokenDict : Dictionary :=
  ⟨insertKey (emptyDict.Add sampleLibs 1 "abc" "first def" "tech").1.db "xyz" [9]⟩

end DictionaryAsGo

namespace DictionaryAsGo

/-! ## The store: reading after writing -/

theorem lookupKey_insertKey_other (db : DB) (key other : String) (val : Bytes) (h : other ≠ key) :
    lookupKey (insertKey db key val) other = lookupKey db other := by
  have hk : ¬ key = other := fun e => h e.symm
  induction db with
  | nil => simp [insertKey, lookupKey, hk]
  | cons kv rest ih =>
    obtain ⟨k, v⟩ := kv
    unfold insertKey
    by_cases h1 : stringLess key k = true
    · simp [h1, lookupKey, hk]
    · by_cases h2 : key = k
      · subst h2
        simp [h1, lookupKey, hk]
      · simp only [h1, h2, if_false, Bool.false_eq_true, lookupKey, ih]

theorem lookupKey_deleteKey_self (db : DB) (key : String) :
    lookupKey (deleteKey db key) key = .error .keyNotFound := by
  induction db with
  | nil => simp [deleteKey, lookupKey]
  | cons kv rest ih =>
    obtain ⟨k, v⟩ := kv
    by_cases h : k = key
    · simpa [deleteKey, h] using ih
    · simpa [deleteKey, h, lookupKey] using ih

theorem lookupKey_deleteKey_other (db : DB) (key other : String) (h : other ≠ key) :
    lookupKey (deleteKey db key) other = lookupKey db other := by
  induction db with
  | nil => simp [deleteKey, lookupKey]
  | cons kv rest ih =>
    obtain ⟨k, v⟩ := kv
    by_cases hk : k = key
    · subst hk
      have hne : ¬ k = other := fun e => h e.symm
      simpa [deleteKey, lookupKey, hne] using ih
    · by_cases ho : k = other
      · subst ho
        simp [deleteKey, hk, lookupKey]
      · simpa [deleteKey, hk, lookupKey, ho] using ih

/-! ## `stringLess` is the order of `String` -/

theorem char_lt_iff_toNat (a b : Char) : a < b ↔ a.toNat < b.toNat := by
  rw [Char.lt_def]
  exact Iff.rfl

theorem lessChars_iff (as bs : List Char) :
    lessChars as bs = true ↔ List.Lex (fun x y : Char => x < y) as bs := by
  induction as generalizing bs with
  | nil =>
    cases bs with
    | nil => simp [lessChars, List.Lex.not_nil_right]
    | cons b bs => simp [lessChars, List.Lex.nil]
  | cons a as ih =>
    cases bs with
    | nil => simp [lessChars, List.Lex.not_nil_right]
    | cons b bs =>
      unfold lessChars
      by_cases h1 : a.toNat < b.toNat
      · simp only [h1, if_true, true_iff]
        exact List.Lex.rel ((char_lt_iff_toNat a b).2 h1)
      · by_cases h2 : a = b
        · subst h2
          simp only [h1, if_false, if_true]
          rw [ih bs]
          exact List.Lex.cons_iff.symm
        · simp only [h1, h2, if_false, Bool.false_eq_true, false_iff]
          intro hlex
          cases hlex with
          | cons h => exact h2 rfl
          | rel h => exact h1 ((char_lt_iff_toNat a b).1 h)

theorem stringLess_iff (a b : String) : stringLess a b = true ↔ a < b := by
  rw [String.lt_iff_toList_lt]
  exact lessChars_iff a.data b.data

theorem stringLess_eq_false_iff (a b : String) : stringLess a b = false ↔ b ≤ a := by
  rw [← not_lt, ← stringLess_iff]
  simp

/-! ## `sort.Strings` -/

theorem mem_mapSet (m : GoMap) (k : String) (v : Entry) (p : String × Entry) :
    p ∈ mapSet m k v ↔ p = (k, v) ∨ (p ∈ m ∧ p.1 ≠ k) := by
  simp [mapSet, List.mem_filter]

theorem mem_mapKeys_mapSet (m : GoMap) (k : String) (v : Entry) (w : String) :
    w ∈ mapKeys (mapSet m k v) ↔ w = k ∨ w ∈ mapKeys m := by
  simp only [mapKeys, List.mem_map, Prod.exists, exists_and_right, exists_eq_right, mem_mapSet]
  constructor
  · rintro ⟨e, h | h⟩
    · left
      exact (Prod.mk.inj h).1
    · right
      exact ⟨e, h.1⟩
  · rintro (h | ⟨e, h⟩)
    · exact ⟨v, Or.inl (by rw [h])⟩
    · by_cases hk : w = k
      · exact ⟨v, Or.inl (by rw [hk])⟩
      · exact ⟨e, Or.inr ⟨h, hk⟩⟩

theorem mem_mapKeys_buildMap (es : List Entry) (m : GoMap) (w : String) :
    w ∈ mapKeys (buildMap es m) ↔ w ∈ es.map Entry.Word ∨ w ∈ mapKeys m := by
  induction es generalizing m with
  | nil => simp [buildMap]
  | cons e es ih =>
    simp only [buildMap, ih, mem_mapKeys_mapSet, List.map_cons, List.mem_cons]
    tauto

theorem allDecode_cons (L : Libs) (kv : String × Bytes) (db : DB) :
    AllDecode L (kv :: db) ↔ (getEntry L kv.2).2 = none ∧ AllDecode L db := by
  simp [AllDecode]

theorem listLoop_of_allDecode (L : Libs) (db : DB) (m : GoMap) (h : AllDecode L db) :
    listLoop L db m = (buildMap (storedEntries L db) m, none) := by
  induction db generalizing m with
  | nil => simp [listLoop, storedEntries, buildMap]
  | cons kv rest ih =>
    obtain ⟨k, v⟩ := kv
    obtain ⟨h1, h2⟩ := (allDecode_cons L (k, v) rest).1 h
    cases hg : getEntry L v with
    | mk e o =>
      rw [hg] at h1
      simp only at h1
      subst h1
      simp only [listLoop, hg, storedEntries, List.map_cons, buildMap]
      exact ih _ h2

theorem listLoop_stops (L : Libs) (pre post : DB) (k : String) (v : Bytes) (err : Error)
    (m : GoMap) (hpre : AllDecode L pre) (hv : (getEntry L v).2 = some err) :
    listLoop L (pre ++ (k, v) :: post) m = (buildMap (storedEntries L pre) m, some err) := by
  induction pre generalizing m with
  | nil =>
    cases hg : getEntry L v with
    | mk e o =>
      rw [hg] at hv
      simp only at hv
      subst hv
      simp [listLoop, hg, storedEntries, buildMap]
  | cons kv rest ih =>
    obtain ⟨k0, v0⟩ := kv
    obtain ⟨h1, h2⟩ := (allDecode_cons L (k0, v0) rest).1 hpre
    cases hg : getEntry L v0 with
    | mk e o =>
      rw [hg] at h1
      simp only at h1
      subst h1
      simp only [List.cons_append, listLoop, hg, storedEntries, List.map_cons, buildMap]
      exact ih _ h2

theorem first_undecodable (L : Libs) (db : DB)
    (h : ∃ kv ∈ db, (getEntry L kv.2).2 ≠ none) :
    ∃ pre k v post err, db = pre ++ (k, v) :: post ∧ AllDecode L pre ∧
      (getEntry L v).2 = some err := by
  induction db with
  | nil => simp at h
  | cons kv rest ih =>
    obtain ⟨k, v⟩ := kv
    cases hg : (getEntry L v).2 with
    | some err => exact ⟨[], k, v, rest, err, rfl, by simp [AllDecode], hg⟩
    | none =>
      have h2 : ∃ kv ∈ rest, (getEntry L kv.2).2 ≠ none := by
        obtain ⟨kv, hmem, hne⟩ := h
        rcases List.mem_cons.1 hmem with rfl | hmem
        · exact absurd hg hne
        · exact ⟨kv, hmem, hne⟩
      obtain ⟨pre, k1, v1, post, err, hdb, hpre, hv⟩ := ih h2
      refine ⟨(k, v) :: pre, k1, v1, post, err, by rw [hdb]; rfl, ?_, hv⟩
      exact (allDecode_cons L (k, v) pre).2 ⟨hg, hpre⟩

theorem listTagLoop_tags (L : Libs) (t : Tag) (db : DB) (m : GoMap)
    (hm : ∀ p ∈ m, IsValidTag p.2.Tag = true ∧ p.2.Tag = t) :
    ∀ p ∈ (listTagLoop L t db m).1, IsValidTag p.2.Tag = true ∧ p.2.Tag = t := by
  induction db generalizing m with
  | nil => simpa [listTagLoop] using hm
  | cons kv rest ih =>
    obtain ⟨k, v⟩ := kv
    have hm1 : ∀ p ∈ (if IsValidTag (getEntry L v).1.Tag && decide ((getEntry L v).1.Tag = t)
        then mapSet m (getEntry L v).1.Word (getEntry L v).1 else m),
        IsValidTag p.2.Tag = true ∧ p.2.Tag = t := by
      intro p hp
      by_cases hc : (IsValidTag (getEntry L v).1.Tag && decide ((getEntry L v).1.Tag = t)) = true
      · rw [if_pos hc] at hp
        rcases (mem_mapSet _ _ _ _).1 hp with rfl | hp
        · simpa using hc
        · exact hm p hp.1
      · rw [if_neg hc] at hp
        exact hm p hp
    simp only [listTagLoop]
    cases hg : (getEntry L v).2 with
    | some err => exact hm1
    | none => exact ih _ hm1

/-! ## The checks of the engine -/

theorem keyError_empty : keyError "" = some Error.emptyKey := by
  simp [keyError]

theorem ne_empty_of_keyError (w : String) (h : keyError w = none) : w ≠ "" := by
  intro hw
  rw [hw, keyError_empty] at h
  exact Option.noConfusion h

theorem txnGet_of_ne_empty (db : DB) (w : String) (h : w ≠ "") :
    txnGet db w = lookupKey db w := by
  simp [txnGet, h]

theorem add_cases (L : Libs) (d : Dictionary) (now : Nat) (w df : String) (t : Tag) :
    (∃ err, d.Add L now w df t = (d, some err)) ∨
      ∃ buffer, L.encode ⟨L.title w, df, t, now⟩ = .ok buffer ∧ keyError w = none ∧
        d.Add L now w df t = (⟨insertKey d.db w buffer⟩, none) := by
  cases he : L.encode ⟨L.title w, df, t, now⟩ with
  | error err => exact Or.inl ⟨err, by simp only [Dictionary.Add, he]⟩
  | ok buffer =>
    cases hk : keyError w with
    | some err => exact Or.inl ⟨err, by simp only [Dictionary.Add, he, txnSet, hk]⟩
    | none =>
      by_cases hf : L.fits w buffer = true
      · exact Or.inr ⟨buffer, rfl, rfl, by simp [Dictionary.Add, he, txnSet, hk, hf]⟩
      · exact Or.inl ⟨Error.tooBig, by simp [Dictionary.Add, he, txnSet, hk, hf]⟩

theorem remove_of_key (d : Dictionary) (w : String) (h : keyError w = none) :
    d.Remove w = (⟨deleteKey d.db w⟩, none) := by
  simp only [Dictionary.Remove, txnDelete, h]

theorem remove_of_keyError (d : Dictionary) (w : String) (err : Error)
    (h : keyError w = some err) : d.Remove w = (d, some err) := by
  simp only [Dictionary.Remove, txnDelete, h]

theorem get_frame (L : Libs) (db1 db2 : DB) (other : String)
    (h : other ≠ "" → lookupKey db1 other = lookupKey db2 other) :
    (Dictionary.mk db1).Get L other = (Dictionary.mk db2).Get L other := by
  by_cases ho : other = ""
  · simp [Dictionary.Get, txnGet, ho]
  · simp only [Dictionary.Get, txnGet_of_ne_empty _ _ ho, h ho]

/-! ## The store stays in key order, one value per key -/

theorem mem_insertKey (db : DB) (key : String) (val : Bytes) (p : String × Bytes)
    (h : p ∈ insertKey db key val) : p = (key, val) ∨ p ∈ db := by
  induction db with
  | nil => simpa [insertKey] using h
  | cons kv rest ih =>
    obtain ⟨k, v⟩ := kv
    unfold insertKey at h
    by_cases h1 : stringLess key k = true
    · simp only [h1, if_true, List.mem_cons] at h
      simpa using h
    · by_cases h2 : key = k
      · subst h2
        simp only [h1, if_true, if_false, Bool.false_eq_true, List.mem_cons] at h
        rcases h with h | h
        · exact Or.inl h
        · exact Or.inr (List.mem_cons_of_mem _ h)
      · simp only [h1, h2, if_false, Bool.false_eq_true, List.mem_cons] at h
        rcases h with h | h
        · exact Or.inr (by rw [h]; exact List.mem_cons_self _ _)
        · rcases ih h with h | h
          · exact Or.inl h
          · exact Or.inr (List.mem_cons_of_mem _ h)

theorem mem_deleteKey (db : DB) (key : String) (p : String × Bytes)
    (h : p ∈ deleteKey db key) : p ∈ db :=
  (List.mem_filter.1 h).1

theorem insertKey_WF (db : DB) (key : String) (val : Bytes) (h : DB.WF db) :
    DB.WF (insertKey db key val) := by
  induction db with
  | nil => simp [insertKey, DB.WF]
  | cons kv rest ih =>
    obtain ⟨k, v⟩ := kv
    have hs : (k :: rest.map Prod.fst).Sorted (fun a b : String => a < b) := h
    obtain ⟨hk, hrest⟩ := List.sorted_cons.1 hs
    unfold insertKey
    by_cases h1 : stringLess key k = true
    · have hlt : key < k := (stringLess_iff key k).1 h1
      simp only [h1, if_true, DB.WF, List.map_cons]
      refine List.sorted_cons.2 ⟨?_, hs⟩
      intro b hb
      rcases List.mem_cons.1 hb with rfl | hb
      · exact hlt
      · exact lt_trans hlt (hk b hb)
    · by_cases h2 : key = k
      · subst h2
        simp only [h1, if_true, if_false, Bool.false_eq_true, DB.WF, List.map_cons]
        exact hs
      · simp only [h1, h2, if_false, Bool.false_eq_true, DB.WF, List.map_cons]
        have hle : k ≤ key := by
          apply (stringLess_eq_false_iff key k).1
          simpa using h1
        have hlt : k < key := lt_of_le_of_ne hle (fun e => h2 e.symm)
        refine List.sorted_cons.2 ⟨?_, ih hrest⟩
        intro b hb
        obtain ⟨p, hp, rfl⟩ := List.mem_map.1 hb
        rcases mem_insertKey rest key val p hp with rfl | hp
        · exact hlt
        · exact hk _ (List.mem_map_of_mem _ hp)

theorem deleteKey_WF (db : DB) (key : String) (h : DB.WF db) : DB.WF (deleteKey db key) :=
  List.Pairwise.sublist (List.Sublist.map _ (List.filter_sublist db)) h

theorem add_WF (L : Libs) (d : Dictionary) (now : Nat) (w df : String) (t : Tag)
    (h : DB.WF d.db) : DB.WF (d.Add L now w df t).1.db := by
  rcases add_cases L d now w df t with ⟨err, he⟩ | ⟨buffer, _, _, he⟩
  · rw [he]
    exact h
  · rw [he]
    exact insertKey_WF _ _ _ h

theorem remove_WF (d : Dictionary) (w : String) (h : DB.WF d.db) :
    DB.WF (d.Remove w).1.db := by
  cases hk : keyError w with
  | some err =>
    rw [remove_of_keyError d w err hk]
    exact h
  | none =>
    rw [remove_of_key d w hk]
    exact deleteKey_WF _ _ h

/-! ## The concrete codec round-trips -/

theorem takeString_putString (s : String) (rest : Bytes) :
    takeString (putString s ++ rest) = some (s, rest) := by
  have hlen : s.length = (s.data.map Char.toNat).length := by simp
  have hmap : List.map Char.ofNat (List.map Char.toNat s.data) = s.data := by
    rw [List.map_map]
    have : (Char.ofNat ∘ Char.toNat) = id := by
      funext c
      simp [Char.ofNat_toNat]
    rw [this, List.map_id]
  simp only [putString, List.cons_append, takeString]
  rw [if_pos (by simp)]
  rw [hlen, List.take_left, List.drop_left, hmap]

theorem sampleLibs_roundTrip : sampleLibs.RoundTrip := by
  intro e b h
  simp only [sampleLibs, sampleEncode, Except.ok.injEq] at h
  subst h
  simp only [sampleLibs, sampleDecode, takeString_putString]

/-! ## Add, Get and Remove -/

/-- C8: `IsValidTag tag` is true exactly when `tag` is "tech", "philo" or "food"
(string equality, case-sensitive); `IsValidTag "tech"` is true and
`IsValidTag "bogus"` is false. -/
theorem isValidTag_iff :
    (∀ tag : Tag, IsValidTag tag = true ↔ (tag = "tech" ∨ tag = "philo" ∨ tag = "food")) ∧
      IsValidTag "tech" = true ∧ IsValidTag "bogus" = false ∧ IsValidTag "Tech" = false := by
  refine ⟨?_, by decide, by decide, by decide⟩
  intro tag
  simp only [IsValidTag, allTags, isValidTagLoop, Tech, Philo, Food]
  by_cases h1 : "tech" = tag
  · simp [h1.symm]
  · by_cases h2 : "philo" = tag
    · simp [h2.symm]
    · by_cases h3 : "food" = tag
      · simp [h3.symm]
      · have h1a : ¬ tag = "tech" := fun h => h1 h.symm
        have h2a : ¬ tag = "philo" := fun h => h2 h.symm
        have h3a : ¬ tag = "food" := fun h => h3 h.symm
        simp [h1, h2, h3, h1a, h2a, h3a]

/-- C2, amended: whatever the store holds and whether or not it has the word,
for every word the engine takes as a key (not empty, not starting with the
reserved `!badger!`, at most 65000 bytes long) `Remove(w)` returns no error and
`Get(w)` right after it returns the not-found error (with the zero entry); for any
other word `Remove(w)` returns the error of the engine and leaves the store as it
was, and for the empty word `Get` returns the empty-key error. -/
theorem remove_then_get (L : Libs) (d : Dictionary) (w : String) :
    (keyError w = none →
        (d.Remove w).2 = none ∧
          (d.Remove w).1.Get L w = (Entry.zero, some Error.keyNotFound)) ∧
      (∀ err, keyError w = some err → d.Remove w = (d, some err)) ∧
      (w = "" → d.Remove w = (d, some Error.emptyKey) ∧
        (d.Remove w).1.Get L w = (Entry.zero, some Error.emptyKey)) := by
  refine ⟨fun hk => ?_, fun err hk => remove_of_keyError d w err hk, fun hw => ?_⟩
  · rw [remove_of_key d w hk]
    refine ⟨rfl, ?_⟩
    simp only [Dictionary.Get, txnGet_of_ne_empty _ _ (ne_empty_of_keyError w hk),
      lookupKey_deleteKey_self]
  · subst hw
    rw [remove_of_keyError d "" _ keyError_empty]
    exact ⟨rfl, by simp [Dictionary.Get, txnGet]⟩

/-- C10: `Add(w, ..)` and `Remove(w)` leave every other raw key as it was: for
`other ≠ w` (also when they differ only in letter case) `Get(other)` returns
after the call what it returned before. -/
theorem add_remove_frame (L : Libs) (d : Dictionary) (now : Nat) (w df : String) (t : Tag)
    (other : String) (h : other ≠ w) :
    (d.Add L now w df t).1.Get L other = d.Get L other ∧
      (d.Remove w).1.Get L other = d.Get L other := by
  constructor
  · rcases add_cases L d now w df t with ⟨err, he⟩ | ⟨buffer, _, _, he⟩
    · rw [he]
    · rw [he]
      exact get_frame L _ _ other (fun _ => lookupKey_insertKey_other _ _ _ _ h)
  · cases hk : keyError w with
    | some err => rw [remove_of_keyError d w err hk]
    | none =>
      rw [remove_of_key d w hk]
      exact get_frame L _ _ other (fun _ => lookupKey_deleteKey_other _ _ _ h)

/-! ## ListTag keeps only the requested, valid tag -/

/-- C6: whatever the store holds (values with invalid tags or that do not decode
included) and whatever tag `t` is asked for, every entry of the map `ListTag(t)`
returns has a tag of the valid set equal to `t`; so for a `t` outside the valid
set the map and the word sequence are empty. -/
theorem listTag_only_valid (L : Libs) (d : Dictionary) (t : Tag) :
    (∀ p ∈ (d.ListTag L t).entries, IsValidTag p.2.Tag = true ∧ p.2.Tag = t) ∧
      (IsValidTag t = false → (d.ListTag L t).entries = [] ∧ (d.ListTag L t).words = []) := by
  have h1 : ∀ p ∈ (d.ListTag L t).entries, IsValidTag p.2.Tag = true ∧ p.2.Tag = t :=
    listTagLoop_tags L t d.db [] (by simp)
  refine ⟨h1, fun ht => ?_⟩
  have hnil : (d.ListTag L t).entries = [] := by
    apply List.eq_nil_iff_forall_not_mem.2
    intro p hp
    obtain ⟨hv, he⟩ := h1 p hp
    rw [he, ht] at hv
    exact Bool.noConfusion hv
  refine ⟨hnil, ?_⟩
  have hw : (d.ListTag L t).words = sortedKeys (d.ListTag L t).entries := rfl
  rw [hw, hnil]
  rfl

/-! ## List -/

theorem list_of_allDecode (L : Libs) (d : Dictionary) (h : AllDecode L d.db) :
    d.List L = ⟨sortStrings (mapKeys (buildMap (storedEntries L d.db) [])),
      buildMap (storedEntries L d.db) [], none⟩ := by
  simp only [Dictionary.List, listLoop_of_allDecode L d.db [] h, sortedKeys]

/-- C7, amended: when some stored value does not decode, `List` returns a
non-nil error, the decode error of the first such value in scan order, and the
scan stops there: the map and the word sequence returned with the error are
those `List` builds from the values stored before it, so they are empty exactly
when nothing is stored before it. -/
theorem list_stops_at_first_error (L : Libs) (d : Dictionary)
    (h : ∃ kv ∈ d.db, (getEntry L kv.2).2 ≠ none) :
    (d.List L).err ≠ none ∧
      ∃ pre k v post err, d.db = pre ++ (k, v) :: post ∧ AllDecode L pre ∧
        (getEntry L v).2 = some err ∧ (d.List L).err = some err ∧
        (d.List L).entries = ((Dictionary.mk pre).List L).entries ∧
        (d.List L).words = ((Dictionary.mk pre).List L).words ∧
        ((d.List L).entries = [] ↔ pre = []) := by
  obtain ⟨pre, k, v, post, err, hdb, hpre, hv⟩ := first_undecodable L d.db h
  have hl : d.List L = ⟨sortStrings (mapKeys (buildMap (storedEntries L pre) [])),
      buildMap (storedEntries L pre) [], some err⟩ := by
    simp only [Dictionary.List, hdb, listLoop_stops L pre post k v err [] hpre hv, sortedKeys]
  have hp := list_of_allDecode L ⟨pre⟩ hpre
  refine ⟨by rw [hl]; simp, pre, k, v, post, err, hdb, hpre, hv, ?_, ?_, ?_, ?_⟩
  · rw [hl]
  · rw [hl, hp]
  · rw [hl, hp]
  · rw [hl]
    simp only
    constructor
    · intro hnil
      cases pre with
      | nil => rfl
      | cons kv rest =>
        exfalso
        have hmem : (getEntry L kv.2).1.Word ∈ mapKeys (buildMap (storedEntries L (kv :: rest)) []) := by
          rw [mem_mapKeys_buildMap]
          left
          simp [storedEntries]
        rw [hnil] at hmem
        simp [mapKeys] at hmem
    · intro hnil
      rw [hnil]
      rfl

/-! ## ListTag against List -/

theorem handleError_d (d : Dictionary) (err : Option Error) : (handleError d err).d = d := by
  cases err <;> rfl

theorem add_tagsValid (L : Libs) (hL : L.RoundTrip) (d : Dictionary) (now : Nat)
    (w df : String) (t : Tag) (ht : IsValidTag t = true) (h : TagsValid L d.db) :
    TagsValid L (d.Add L now w df t).1.db := by
  rcases add_cases L d now w df t with ⟨err, he⟩ | ⟨buffer, henc, _, he⟩
  · rw [he]
    exact h
  · rw [he]
    intro kv hkv e hdec
    rcases mem_insertKey _ _ _ _ hkv with rfl | hold
    · have hrt := hL _ _ henc
      simp only [getEntry] at hdec
      rw [hrt] at hdec
      have he2 : e = ⟨L.title w, df, t, now⟩ := (Prod.mk.inj hdec).1.symm
      rw [he2]
      exact ht
    · exact h kv hold e hdec

theorem remove_tagsValid (L : Libs) (d : Dictionary) (w : String) (h : TagsValid L d.db) :
    TagsValid L (d.Remove w).1.db := by
  cases hk : keyError w with
  | some err =>
    rw [remove_of_keyError d w err hk]
    exact h
  | none =>
    rw [remove_of_key d w hk]
    intro kv hkv e hdec
    exact h kv (mem_deleteKey _ _ _ hkv) e hdec

theorem actionAdd_tagsValid (L : Libs) (hL : L.RoundTrip) (now : Nat) (d : Dictionary)
    (args : List String) (h : TagsValid L d.db) :
    TagsValid L (actionAdd L now d args).d.db := by
  unfold actionAdd
  split
  · rename_i word definition tag _ _ _
    by_cases ht : IsValidTag tag = true
    · simp only [ht, Bool.not_true, Bool.false_eq_true, if_false, handleError_d]
      exact add_tagsValid L hL d now word definition tag ht h
    · simp only [ht, Bool.not_false, if_true]
      simpa using h
  · exact h

/-- C9: starting from a store in which every stored entry has a tag of the valid
set, every run of the command line (`list`, `add`, `define`, `remove`, `tag` or
any other action, with any arguments) leaves such a store; and `add` with a tag
outside the valid set takes the "Invalid tag" branch, which does not call `Add`,
and leaves the dictionary as it was.  The codec is assumed to round-trip. -/
theorem cli_keeps_tags_valid (L : Libs) (hL : L.RoundTrip) (now : Nat) (d : Dictionary)
    (action : String) (args : List String) (h : TagsValid L d.db) :
    TagsValid L (main L now d action args).d.db ∧
      (∀ tag, args[2]? = some tag → IsValidTag tag = false →
        main L now d "add" args = ⟨d, .invalidTag⟩) := by
  constructor
  · unfold main
    split_ifs
    · simpa only [actionList, handleError_d] using h
    · exact actionAdd_tagsValid L hL now d args h
    · unfold actionDefine
      split
      · simpa only [handleError_d] using h
      · exact h
    · unfold actionRemove
      split
      · simp only [handleError_d]
        exact remove_tagsValid L d _ h
      · exact h
    · unfold actionTag
      split
      · split_ifs
        · exact h
        · simpa only [handleError_d] using h
      · exact h
    · exact h
  · intro tag hargs ht
    rcases args with _ | ⟨a, _ | ⟨b, _ | ⟨c, rest⟩⟩⟩
    · simp at hargs
    · simp at hargs
    · simp at hargs
    · simp only [List.getElem?_cons_succ, List.getElem?_cons_zero, Option.some.injEq] at hargs
      subst hargs
      have hne : ¬ ("add" = "list") := by decide
      simp [main, hne, actionAdd, ht]

/-! ## The theorems at concrete inputs -/

/-- The theorem `remove_then_get` at the key `abc` of the store holding `abc` and `xyz`. -/
theorem remove_then_get_witness :
    keyError "abc" = none ∧
      (twoWordDict.Remove "abc").2 = none ∧
      (twoWordDict.Remove "abc").1.Get sampleLibs "abc" =
        (Entry.zero, some Error.keyNotFound) :=
  ⟨by decide, (remove_then_get sampleLibs twoWordDict "abc").1 (by decide)⟩

/-- C2 as stated fails at the empty word: `Remove` returns the empty-key error of
the engine, not nil, and `Get` right after it returns the same error, not the
not-found error; a word under the reserved `!badger!` is refused as well. -/
theorem remove_empty_counterexample :
    twoWordDict.Remove "" = (twoWordDict, some Error.emptyKey) ∧
      (twoWordDict.Remove "").2 ≠ none ∧
      (twoWordDict.Remove "").1.Get sampleLibs "" = (Entry.zero, some Error.emptyKey) ∧
      ((twoWordDict.Remove "").1.Get sampleLibs "").2 ≠ some Error.keyNotFound ∧
      (twoWordDict.Remove "!badger!x").2 = some Error.invalidKey :=
  ⟨by decide, by decide, by decide, by decide, by decide⟩

/-- The theorem `add_remove_frame` at the keys `hello` and `Hello`, which differ in case only. -/
theorem add_remove_frame_witness :
    "Hello" ≠ "hello" ∧
      (collidingDict.Add sampleLibs 7 "hello" "changed" "philo").1.Get sampleLibs "Hello" =
        (⟨"Hello", "a greeting", "tech", 1⟩, none) ∧
      (collidingDict.Remove "hello").1.Get sampleLibs "Hello" =
        (⟨"Hello", "a greeting", "tech", 1⟩, none) :=
  ⟨by decide,
    (add_remove_frame sampleLibs collidingDict 7 "hello" "changed" "philo" "Hello"
      (by decide)).1.trans (by decide),
    (add_remove_frame sampleLibs collidingDict 7 "hello" "changed" "philo" "Hello"
      (by decide)).2.trans (by decide)⟩

/-- The theorem `listTag_only_valid` at the tag `bogus`. -/
theorem listTag_only_valid_witness :
    IsValidTag "bogus" = false ∧
      (twoWordDict.ListTag sampleLibs "bogus").entries = [] ∧
      (twoWordDict.ListTag sampleLibs "bogus").words = [] :=
  ⟨by decide, (listTag_only_valid sampleLibs twoWordDict "bogus").2 (by decide)⟩

/-- The theorem `list_stops_at_first_error` at a store whose second value does not decode. -/
theorem list_stops_at_first_error_witness :
    (∃ kv ∈ brokenDict.db, (getEntry sampleLibs kv.2).2 ≠ none) ∧
      (brokenDict.List sampleLibs).err ≠ none :=
  ⟨⟨("xyz", [9]), by decide, by decide⟩,
    (list_stops_at_first_error sampleLibs brokenDict ⟨("xyz", [9]), by decide, by decide⟩).1⟩

/-- C7 as stated fails where a value that decodes is stored before one that
does not: `List` returns the decode error together with the word and the entry
read before it, not an empty sequence and map. -/
theorem list_error_counterexample :
    (∃ kv ∈ brokenDict.db, (getEntry sampleLibs kv.2).2 ≠ none) ∧
      brokenDict.List sampleLibs =
        ⟨["Abc"], [("Abc", ⟨"Abc", "first def", "tech", 1⟩)], some (.gob 1)⟩ ∧
      (brokenDict.List sampleLibs).words ≠ [] ∧
      (brokenDict.List sampleLibs).entries ≠ [] :=
  ⟨⟨("xyz", [9]), by decide, by decide⟩, by decide, by decide, by decide⟩

/-- The theorem `cli_keeps_tags_valid` at `-action=add hello "a greeting" bogus` on the
store holding `abc` and `xyz`. -/
theorem cli_keeps_tags_valid_witness :
    sampleLibs.RoundTrip ∧ TagsValid sampleLibs twoWordDict.db ∧
      TagsValid sampleLibs
        (main sampleLibs 9 twoWordDict "add" ["hello", "a greeting", "bogus"]).d.db ∧
      main sampleLibs 9 twoWordDict "add" ["hello", "a greeting", "bogus"] =
        ⟨twoWordDict, .invalidTag⟩ :=
  have hv : TagsValid sampleLibs twoWordDict.db := by
    intro kv hkv e he
    have hall : ∀ kv ∈ twoWordDict.db,
        IsValidTag (getEntry sampleLibs kv.2).1.Tag = true := by decide
    have := hall kv hkv
    rw [he] at this
    exact this
  ⟨sampleLibs_roundTrip, hv,
    (cli_keeps_tags_valid sampleLibs sampleLibs_roundTrip 9 twoWordDict "add"
      ["hello", "a greeting", "bogus"] hv).1,
    (cli_keeps_tags_valid sampleLibs sampleLibs_roundTrip 9 twoWordDict "add"
      ["hello", "a greeting", "bogus"] hv).2 "bogus" (by decide) (by decide)⟩

end DictionaryAsGo
